import Mathlib

/- Shallow embedding of the cryptographer repository (src/ciphers/rsa.py and
   src/ciphers/vigenere.py).  Byte strings are modelled as `List Nat` with every
   element below 256; Python big integers are `Nat`.  Randomness is modelled by
   passing the outputs of `secrets.randbelow` / `os.urandom` explicitly.
   Unbounded `while` loops are modelled with an explicit fuel argument so that
   every definition stays executable by the kernel; fuel-independence lemmas are
   proved where a loop is known to terminate. -/

/-- Big-endian integer value of a byte string; models
    `int(binascii.hexlify(chunk), 16)`. -/
def beVal (bs : List Nat) : Nat :=
  bs.foldl (fun acc b => acc * 256 + b) 0

/-- Fixed-width big-endian byte encoding of `v` (width `w` bytes). -/
def toBEBytes : Nat → Nat → List Nat
  | 0, _ => []
  | w + 1, v => toBEBytes w (v / 256) ++ [v % 256]

/-- Fuel-indexed base-`b` logarithm: `logbAux b fuel n` counts how often `n`
    can be divided by `b` before falling below `b` (enough fuel assumed). -/
def logbAux (b : Nat) : Nat → Nat → Nat
  | 0, _ => 0
  | fuel + 1, n => if n < b then 0 else logbAux b fuel (n / b) + 1

/-- `⌊log_b n⌋` as a structurally computable function (`fuel = n` suffices). -/
def logb (b n : Nat) : Nat := logbAux b n n

/-- Number of hex digits produced by Python `'%x' % v` (no padding). -/
def hexLen (v : Nat) : Nat :=
  if v = 0 then 1 else logb 16 v + 1

/-- Models `binascii.unhexlify(('%0{2*w}x' % v).encode())`: the hex rendering of
    `v` is zero-padded on the left to `2*w` digits (more digits appear when `v`
    does not fit the width) and decoded back to bytes; `unhexlify` raises on an
    odd number of digits, modelled as `none`. -/
def fmtBytes (w v : Nat) : Option (List Nat) :=
  let digits := max (2 * w) (hexLen v)
  if digits % 2 = 0 then some (toBEBytes (digits / 2) v) else none

/-- Fuel-indexed version of `chunks` (fuel bounds the number of slices). -/
def chunksAux (L : Nat) : Nat → List Nat → List (List Nat)
  | _, [] => []
  | 0, _ :: _ => []
  | fuel + 1, d :: ds => (d :: ds).take L :: chunksAux L fuel (ds.drop (L - 1))

/-- Consecutive `L`-byte slices of `data`; models the loop
    `for start in range(0, len(data), L)` over `data[start:start+L]`
    (faithful for `L ≥ 1`, the only case reachable under the claims, where the
    modulus is at least 256). -/
def chunks (L : Nat) (data : List Nat) : List (List Nat) :=
  chunksAux L data.length data

/-- Models `bytes.rstrip(b'\x00')`: drop trailing zero bytes. -/
def rstripZeros (l : List Nat) : List Nat :=
  ((l.reverse).dropWhile (fun b => b == 0)).reverse

/-- Collect a list of optional values; any `none` (a raised Python exception)
    aborts the whole computation. -/
def collectSome {α : Type} : List (Option α) → Option (List α)
  | [] => some []
  | o :: os => o.bind (fun a => (collectSome os).map (fun rest => a :: rest))

/-- State of a Python `RSAKey` object.  `__init__` assigns only `pubkey`,
    `privkey` and `composite`; the distinct attributes `public` and `private`
    (read by `get_public`/`get_private`, written by `set_public`/`set_private`)
    do not exist until assigned, which is modelled with `Option`
    (`none` = attribute absent, so reading it raises `AttributeError`). -/
structure RSAKey where
  pubkey : Nat
  privkey : Nat
  composite : Nat
  publicAttr : Option Nat
  privateAttr : Option Nat

namespace RSAKey

/-- Models `RSAKey(keys=(pub, priv, comp))`: `__init__` stores the triple in
    `pubkey`, `privkey`, `composite` and never assigns `public`/`private`. -/
def mkFromKeys (pub priv comp : Nat) : RSAKey :=
  ⟨pub, priv, comp, none, none⟩

/-- Models `get_public`: `return (self.public, self.composite)`; reading the
    never-initialised attribute `self.public` is an `AttributeError` (`none`). -/
def get_public (r : RSAKey) : Option (Nat × Nat) :=
  r.publicAttr.map (fun p => (p, r.composite))

/-- Models `get_private`: `return (self.private, self.composite)`. -/
def get_private (r : RSAKey) : Option (Nat × Nat) :=
  r.privateAttr.map (fun p => (p, r.composite))

/-- Models `set_public`: `self.public, self.composite = public`.  It assigns
    the attribute `public` (not `pubkey`) together with `composite`. -/
def set_public (r : RSAKey) (pub : Nat × Nat) : RSAKey :=
  { r with publicAttr := some pub.1, composite := pub.2 }

/-- Models `set_private`: `self.private, self.composite = private`. -/
def set_private (r : RSAKey) (priv : Nat × Nat) : RSAKey :=
  { r with privateAttr := some priv.1, composite := priv.2 }

/-- Fuel-indexed version of `splitTwos` (`fuel = m` suffices). -/
def splitTwosAux : Nat → Nat → Nat × Nat
  | 0, m => (0, m)
  | fuel + 1, m =>
    if m % 2 = 1 ∨ m = 0 then (0, m)
    else
      let p := splitTwosAux fuel (m / 2)
      (p.1 + 1, p.2)

/-- The `while not d & 1: s, d = s + 1, d >> 1` loop of `_isprime`:
    split `m` as `2 ^ s * d` with `d` odd, returning `(s, d)`. -/
def splitTwos (m : Nat) : Nat × Nat := splitTwosAux m m

/-- The inner `for _ in range(s - 1)` witness-squaring loop of `_isprime`,
    returning whether the round passes (`n - 1` reached).  The source's two
    failing exits (`x == 1` and exhaustion of the loop) both make `_isprime`
    return `False`, so both are `false` here. -/
def squareLoop (n n1 : Nat) : Nat → Nat → Bool
  | 0, _ => false
  | k + 1, x =>
    let x2 := x ^ 2 % n
    if x2 = 1 then false
    else if x2 = n1 then true
    else squareLoop n n1 k x2

/-- One Miller-Rabin round of `_isprime` given the raw draw `r`
    (`a = secrets.randbelow(n - 1) + 2`). -/
def mrRound (n n1 d s : Nat) (r : Nat) : Bool :=
  let a := r + 2
  let x := a ^ d % n
  if x = 1 ∨ x = n1 then true
  else squareLoop n n1 (s - 1) x

/-- Models `_isprime(n, k)` with the `k` raw outputs of
    `secrets.randbelow(n - 1)` supplied as the list `rs`. -/
def isprime (n : Nat) (rs : List Nat) : Bool :=
  if n ≤ 3 then n == 2 || n == 3
  else
    let n1 := n - 1
    let sd := splitTwos n1
    rs.all (fun r => mrRound n n1 sd.2 sd.1 r)

/-- Models `_randprime(num)`: `prime = 1; while not self._isprime(prime):
    prime = secrets.randbelow(num) + 1; return prime`.  Each step of the list
    supplies the base draws for the primality check of the current candidate
    and the next `randbelow(num)` output; `none` means the supplied draws ran
    out with the loop still running (the source has no other exit). -/
def randprimeFuel (num : Nat) : Nat → List (List Nat × Nat) → Option Nat
  | _, [] => none
  | prime, (bs, r) :: rest =>
    if isprime prime bs then some prime else randprimeFuel num (r + 1) rest

/-- The two `assert` statements closing `generate_keys` (probe value
    `1234567`): the chained comparison
    `public * private % totient == gcd(public, totient) == gcd(private, totient) == 1`
    and the probe round trip `pow(pow(1234567, public, composite), private,
    composite) == 1234567`. -/
def selfCheck (pub priv totient composite : Nat) : Bool :=
  (pub * priv % totient == Nat.gcd pub totient &&
    (Nat.gcd pub totient == Nat.gcd priv totient && Nat.gcd priv totient == 1)) &&
  ((1234567 ^ pub % composite) ^ priv % composite == 1234567)

/-- `chunksize = int(math.log(self.composite, 256))`, modelled as the exact
    `⌊log₂₅₆ composite⌋` (the float logarithm is assumed to round to the exact
    floor). -/
def chunksize (r : RSAKey) : Nat := logb 256 r.composite

/-- Body of both encryption loops: zero-pad the slice to `chunksize` bytes on
    the right, read it big-endian, raise to `pubkey` modulo `composite` and
    format the result as `chunksize + 1` bytes. -/
def encodeChunk (r : RSAKey) (chunk : List Nat) : Option (List Nat) :=
  let L := chunksize r
  let padded := chunk ++ List.replicate (L - chunk.length) 0
  let plain := beVal padded
  let coded := plain ^ r.pubkey % r.composite
  fmtBytes (L + 1) coded

/-- Models `encrypt_generator`: the sequence of blocks the generator yields. -/
def encrypt_generator (r : RSAKey) (data : List Nat) : List (Option (List Nat)) :=
  (chunks (chunksize r) data).map (encodeChunk r)

/-- Fuel-indexed accumulation loop of batch `encrypt`; a `none` from the chunk
    body (a raised exception) propagates out of the loop. -/
def encryptLoopAux (r : RSAKey) : Nat → List Nat → Option (List (List Nat))
  | _, [] => some []
  | 0, _ :: _ => none
  | fuel + 1, d :: ds =>
    (encodeChunk r ((d :: ds).take (chunksize r))).bind fun b =>
      (encryptLoopAux r fuel (ds.drop (chunksize r - 1))).map fun rest => b :: rest

/-- The accumulation loop of batch `encrypt` (builds the `result` list). -/
def encryptLoop (r : RSAKey) (data : List Nat) : Option (List (List Nat)) :=
  encryptLoopAux r data.length data

/-- Models batch `encrypt`: the loop followed by `b''.join(result)`. -/
def encrypt (r : RSAKey) (data : List Nat) : Option (List Nat) :=
  (encryptLoop r data).map List.flatten

/-- Body of both decryption loops for one `chunksize + 1`-byte slice: read it
    big-endian, raise to `privkey` modulo `composite` and format the result as
    `chunksize` bytes. -/
def decodeBlock (r : RSAKey) (block : List Nat) : Option (List Nat) :=
  let L := chunksize r
  let coded := beVal block
  let plain := coded ^ r.privkey % r.composite
  fmtBytes L plain

/-- Models `decrypt_generator`: each yielded chunk is right-stripped of zero
    bytes individually. -/
def decrypt_generator (r : RSAKey) (data : List Nat) : List (Option (List Nat)) :=
  (chunks (chunksize r + 1) data).map (fun b => (decodeBlock r b).map rstripZeros)

/-- Fuel-indexed accumulation loop of batch `decrypt` (slice width
    `chunksize + 1`, so the drop count after the head is `chunksize`). -/
def decryptLoopAux (r : RSAKey) : Nat → List Nat → Option (List (List Nat))
  | _, [] => some []
  | 0, _ :: _ => none
  | fuel + 1, d :: ds =>
    (decodeBlock r ((d :: ds).take (chunksize r + 1))).bind fun c =>
      (decryptLoopAux r fuel (ds.drop (chunksize r))).map fun rest => c :: rest

/-- The accumulation loop of batch `decrypt`. -/
def decryptLoop (r : RSAKey) (data : List Nat) : Option (List (List Nat)) :=
  decryptLoopAux r data.length data

/-- Models batch `decrypt`: join all decoded chunks, then strip trailing zero
    bytes once from the joined result. -/
def decrypt (r : RSAKey) (data : List Nat) : Option (List Nat) :=
  (decryptLoop r data).map (fun cs => rstripZeros cs.flatten)

end RSAKey

/-- ASCII code of the lower-case hex digit for `d < 16`; models Python
    `bytes.hex`. -/
def hexDigitChar (d : Nat) : Nat := if d < 10 then 48 + d else 87 + d

/-- Models `bytes.hex().encode()`: two ASCII hex characters per byte. -/
def hexEncodeBytes (bs : List Nat) : List Nat :=
  (bs.map (fun b => [hexDigitChar (b / 16), hexDigitChar (b % 16)])).flatten

/-- ASCII hex digit test used to model `bytes.fromhex` success. -/
def isHexDigitByte (b : Nat) : Bool :=
  (48 ≤ b && b ≤ 57) || (97 ≤ b && b ≤ 102) || (65 ≤ b && b ≤ 70)

/-- Numeric value of an ASCII hex digit. -/
def hexDigitVal (b : Nat) : Nat :=
  if b ≤ 57 then b - 48 else if b ≤ 70 then b - 55 else b - 87

/-- Decode consecutive pairs of hex digits (even length ensured by caller). -/
def fromhexPairs : List Nat → List Nat
  | h :: l :: rest => (hexDigitVal h * 16 + hexDigitVal l) :: fromhexPairs rest
  | _ => []

/-- Models `try: data = bytes.fromhex(data.decode()) except: pass` for inputs
    without whitespace: decode when the length is even and every character is a
    hex digit, otherwise keep the bytes unchanged. -/
def fromhexTry (data : List Nat) : List Nat :=
  if data.length % 2 == 0 && data.all isHexDigitByte then fromhexPairs data
  else data

/-- State of a Python `VigenereKey` object: the stored (hex-encoded) key. -/
structure VigenereKey where
  key : List Nat

namespace VigenereKey

/-- Models `VigenereKey(key=k)` for a `bytes` key `k`: the constructor stores
    `k.hex().encode()`. -/
def mkFromBytes (k : List Nat) : VigenereKey := ⟨hexEncodeBytes k⟩

/-- Models `copy`: the (already hex-encoded) stored key is passed back through
    the constructor as `bytes`, which hex-encodes it a second time. -/
def copy (v : VigenereKey) : VigenereKey := mkFromBytes v.key

/-- Models `encrypt` for a `bytes` input: byte-wise addition modulo 256 against
    the stored key, returned as the hex string of the result (ASCII bytes);
    `none` models the failed length assertion. -/
def encrypt (v : VigenereKey) (data : List Nat) : Option (List Nat) :=
  if data.length ≤ v.key.length then
    some (hexEncodeBytes (List.zipWith (fun c k => (c + k) % 256) data v.key))
  else none

/-- Models `decrypt`: optional hex decoding, the length assertion, then
    byte-wise subtraction with Python `%` semantics on the possibly negative
    difference. -/
def decrypt (v : VigenereKey) (data : List Nat) : Option (List Nat) :=
  let raw := fromhexTry data
  if raw.length ≤ v.key.length then
    some (List.zipWith (fun c k => (((c : Int) - (k : Int)) % 256).toNat) raw v.key)
  else none

end VigenereKey

/- Fuel-independence and arithmetic facts about the helper definitions. -/

lemma logbAux_eq_log (b : Nat) (hb : 2 ≤ b) :
    ∀ fuel n, n ≤ fuel → logbAux b fuel n = Nat.log b n := by
  intro fuel
  induction fuel with
  | zero =>
    intro n hn
    have h0 : n = 0 := by omega
    subst h0
    simp [logbAux, Nat.log_zero_right]
  | succ f ih =>
    intro n hn
    simp only [logbAux]
    by_cases h : n < b
    · rw [if_pos h, Nat.log_of_lt h]
    · rw [if_neg h]
      have hdiv : n / b < n := Nat.div_lt_self (by omega) (by omega)
      rw [ih (n / b) (by omega)]
      have hpos : 0 < Nat.log b n := Nat.log_pos (by omega) (by omega)
      have := Nat.log_div_base b n
      omega

lemma logb_eq_log (b n : Nat) (hb : 2 ≤ b) : logb b n = Nat.log b n :=
  logbAux_eq_log b hb n n le_rfl

lemma chunksize_eq_log (r : RSAKey) :
    RSAKey.chunksize r = Nat.log 256 r.composite :=
  logb_eq_log 256 r.composite (by omega)

lemma toBEBytes_length (w : Nat) : ∀ v, (toBEBytes w v).length = w := by
  induction w with
  | zero => intro v; rfl
  | succ w ih => intro v; simp [toBEBytes, ih]

lemma beVal_concat (xs : List Nat) (b : Nat) :
    beVal (xs ++ [b]) = beVal xs * 256 + b := by
  simp [beVal, List.foldl_append]

lemma beVal_toBEBytes (w : Nat) : ∀ v, beVal (toBEBytes w v) = v % 256 ^ w := by
  induction w with
  | zero => intro v; simp [toBEBytes, beVal, Nat.mod_one]
  | succ w ih =>
    intro v
    rw [toBEBytes, beVal_concat, ih]
    rw [pow_succ, mul_comm (256 ^ w) 256, Nat.mod_mul]
    omega

lemma beVal_toBEBytes_of_lt {w v : Nat} (h : v < 256 ^ w) :
    beVal (toBEBytes w v) = v := by
  rw [beVal_toBEBytes, Nat.mod_eq_of_lt h]

lemma toBEBytes_beVal (bs : List Nat) (h : ∀ b ∈ bs, b < 256) :
    toBEBytes bs.length (beVal bs) = bs := by
  induction bs using List.reverseRecOn with
  | nil => rfl
  | append_singleton xs b ih =>
    have hb : b < 256 := h b (by simp)
    have hxs : ∀ a ∈ xs, a < 256 := fun a ha => h a (by simp [ha])
    rw [beVal_concat]
    have hlen : (xs ++ [b]).length = xs.length + 1 := by simp
    rw [hlen, toBEBytes]
    have hdiv : (beVal xs * 256 + b) / 256 = beVal xs := by omega
    have hmod : (beVal xs * 256 + b) % 256 = b := by omega
    rw [hdiv, hmod, ih hxs]

lemma beVal_lt (bs : List Nat) (h : ∀ b ∈ bs, b < 256) :
    beVal bs < 256 ^ bs.length := by
  induction bs using List.reverseRecOn with
  | nil => simp [beVal]
  | append_singleton xs b ih =>
    have hb : b < 256 := h b (by simp)
    have hxs : ∀ a ∈ xs, a < 256 := fun a ha => h a (by simp [ha])
    have hx := ih hxs
    rw [beVal_concat]
    have h1 : beVal xs * 256 + b < (beVal xs + 1) * 256 := by omega
    have h2 : (beVal xs + 1) * 256 ≤ 256 ^ xs.length * 256 :=
      Nat.mul_le_mul_right 256 (by omega)
    calc beVal xs * 256 + b < (beVal xs + 1) * 256 := h1
      _ ≤ 256 ^ xs.length * 256 := h2
      _ = 256 ^ (xs ++ [b]).length := by rw [← pow_succ]; simp

lemma hexLen_le {v w : Nat} (hw : 1 ≤ w) (hv : v < 256 ^ w) :
    hexLen v ≤ 2 * w := by
  unfold hexLen
  by_cases h0 : v = 0
  · rw [if_pos h0]; omega
  · rw [if_neg h0, logb_eq_log 16 v (by omega)]
    have hv16 : v < 16 ^ (2 * w) := by
      rw [pow_mul]
      norm_num
      exact hv
    have := Nat.log_lt_of_lt_pow h0 hv16
    omega

lemma fmtBytes_of_lt {w v : Nat} (hw : 1 ≤ w) (hv : v < 256 ^ w) :
    fmtBytes w v = some (toBEBytes w v) := by
  unfold fmtBytes
  have h := hexLen_le hw hv
  rw [Nat.max_eq_left h]
  have h2 : 2 * w % 2 = 0 := by omega
  rw [if_pos h2]
  have h3 : 2 * w / 2 = w := by omega
  rw [h3]

lemma chunksAux_nil (L : Nat) : ∀ fuel, chunksAux L fuel [] = []
  | 0 => rfl
  | _ + 1 => rfl

lemma chunksAux_congr (L : Nat) : ∀ fuel fuel2 (data : List Nat),
    data.length ≤ fuel → data.length ≤ fuel2 →
    chunksAux L fuel data = chunksAux L fuel2 data
  | fuel, fuel2, [], _, _ => by rw [chunksAux_nil, chunksAux_nil]
  | 0, _, _ :: _, h, _ => by simp at h
  | _ + 1, 0, _ :: _, _, h2 => by simp at h2
  | fuel + 1, fuel2 + 1, d :: ds, h, h2 => by
    simp only [chunksAux]
    congr 1
    have hd : (ds.drop (L - 1)).length ≤ ds.length := by
      simp [List.length_drop]
    simp only [List.length_cons] at h h2
    exact chunksAux_congr L fuel fuel2 _ (by omega) (by omega)

lemma chunks_cons (L : Nat) (d : Nat) (ds : List Nat) :
    chunks L (d :: ds) = (d :: ds).take L :: chunks L (ds.drop (L - 1)) := by
  show chunksAux L (d :: ds).length (d :: ds) = _
  simp only [List.length_cons, chunksAux]
  congr 1
  exact chunksAux_congr L ds.length (ds.drop (L - 1)).length _
    (by simp [List.length_drop]) le_rfl

lemma chunks_length (L : Nat) (hL : 1 ≤ L) : ∀ (n : Nat) (data : List Nat),
    data.length ≤ n → (chunks L data).length = (data.length + L - 1) / L
  | _, [], _ => by
    show (0 : Nat) = (0 + L - 1) / L
    rw [Nat.zero_add, Nat.div_eq_of_lt (by omega)]
  | 0, _ :: _, h => by simp at h
  | n + 1, d :: ds, h => by
    simp only [List.length_cons] at h
    rw [chunks_cons, List.length_cons,
      chunks_length L hL n (ds.drop (L - 1)) (by simp [List.length_drop]; omega)]
    rw [List.length_drop, List.length_cons]
    have key : (ds.length - (L - 1) + L - 1) / L = ds.length / L := by
      rcases le_or_lt (L - 1) ds.length with hc | hc
      · have he : ds.length - (L - 1) + L - 1 = ds.length := by omega
        rw [he]
      · have h0 : ds.length - (L - 1) = 0 := by omega
        rw [h0, Nat.zero_add, Nat.div_eq_of_lt (by omega), Nat.div_eq_of_lt (by omega)]
    rw [key]
    have he2 : ds.length + 1 + L - 1 = ds.length + L := by omega
    rw [he2, Nat.add_div_right _ (by omega)]

lemma chunks_flatten (w : Nat) (hw : 1 ≤ w) : ∀ (bs : List (List Nat)),
    (∀ b ∈ bs, b.length = w) → chunks w bs.flatten = bs
  | [], _ => rfl
  | [] :: _, h => by
    have h0 := h [] (by simp)
    simp at h0
    omega
  | (x :: xs) :: rest, h => by
    have hb : (x :: xs).length = w := h _ (by simp)
    have hxs : xs.length = w - 1 := by simp at hb; omega
    rw [List.flatten_cons, List.cons_append, chunks_cons]
    congr 1
    · rw [← List.cons_append, List.take_left' hb]
    · rw [List.drop_left' hxs]
      exact chunks_flatten w hw rest (fun b hbm => h b (by simp [hbm]))

lemma chunks_pad_flatten (L : Nat) (hL : 1 ≤ L) : ∀ (n : Nat) (data : List Nat),
    data.length ≤ n →
    ∃ k, ((chunks L data).map (fun c => c ++ List.replicate (L - c.length) 0)).flatten
      = data ++ List.replicate k 0
  | _, [], _ => ⟨0, by simp [chunks, chunksAux_nil]⟩
  | 0, _ :: _, h => by simp at h
  | n + 1, d :: ds, h => by
    simp only [List.length_cons] at h
    obtain ⟨k, hk⟩ := chunks_pad_flatten L hL n (ds.drop (L - 1))
      (by simp [List.length_drop]; omega)
    rw [chunks_cons, List.map_cons, List.flatten_cons, hk]
    rcases le_or_lt L (ds.length + 1) with hc | hc
    · refine ⟨k, ?_⟩
      have hlen : ((d :: ds).take L).length = L := by
        simp [List.length_take]; omega
      have hz : L - ((d :: ds).take L).length = 0 := by omega
      rw [hz, List.replicate_zero, List.append_nil]
      have hdrop : ds.drop (L - 1) = (d :: ds).drop L := by
        have h1 : (d :: ds).drop ((L - 1) + 1) = ds.drop (L - 1) := List.drop_succ_cons
        have h2 : (L - 1) + 1 = L := by omega
        rw [h2] at h1
        exact h1.symm
      rw [hdrop, ← List.append_assoc, List.take_append_drop]
    · have htake : (d :: ds).take L = d :: ds :=
        List.take_of_length_le (by simp; omega)
      have hdrop : ds.drop (L - 1) = [] :=
        List.drop_eq_nil_of_le (by omega)
      refine ⟨L - (ds.length + 1) + k, ?_⟩
      rw [htake, hdrop, List.nil_append, List.append_assoc,
        List.append_replicate_replicate]
      simp

lemma dropWhile_zero_replicate (k : Nat) (l : List Nat) :
    List.dropWhile (fun b => b == 0) (List.replicate k 0 ++ l)
      = List.dropWhile (fun b => b == 0) l := by
  induction k with
  | zero => simp
  | succ k ih => simp [List.replicate_succ, List.dropWhile_cons, ih]

lemma rstripZeros_append_replicate (xs : List Nat) (k : Nat) :
    rstripZeros (xs ++ List.replicate k 0) = rstripZeros xs := by
  unfold rstripZeros
  rw [List.reverse_append, List.reverse_replicate, dropWhile_zero_replicate]

lemma rstripZeros_eq_self (xs : List Nat) (h : xs.getLast? ≠ some 0) :
    rstripZeros xs = xs := by
  unfold rstripZeros
  rcases hx : xs.reverse with _ | ⟨a, t⟩
  · have h0 : xs = [] := by simpa [List.reverse_eq_nil_iff] using hx
    simp [h0]
  · have ha : xs.getLast? = some a := by
      rw [List.getLast?_eq_head?_reverse, hx]; rfl
    have ha0 : (a == 0) = false := by
      have hne : a ≠ 0 := fun h0 => h (h0 ▸ ha)
      simp [hne]
    rw [List.dropWhile_cons, ha0]
    simp only [Bool.false_eq_true, if_false]
    rw [← hx, List.reverse_reverse]

lemma collectSome_map_eq {α β : Type} (f : α → Option β) (g : α → β) :
    ∀ (l : List α), (∀ a ∈ l, f a = some (g a)) →
    collectSome (l.map f) = some (l.map g)
  | [], _ => rfl
  | a :: t, h => by
    simp only [List.map_cons, collectSome]
    rw [h a (by simp), collectSome_map_eq f g t (fun x hx => h x (by simp [hx]))]
    rfl

lemma flatten_length_const (w : Nat) : ∀ (bs : List (List Nat)),
    (∀ b ∈ bs, b.length = w) → bs.flatten.length = bs.length * w
  | [], _ => by simp
  | b :: rest, h => by
    rw [List.flatten_cons, List.length_append, h b (by simp),
      flatten_length_const w rest (fun x hx => h x (by simp [hx])),
      List.length_cons]
    ring

lemma encryptLoopAux_nil (r : RSAKey) : ∀ fuel, RSAKey.encryptLoopAux r fuel [] = some []
  | 0 => rfl
  | _ + 1 => rfl

lemma encryptLoopAux_eq (r : RSAKey) : ∀ (fuel : Nat) (data : List Nat),
    data.length ≤ fuel →
    RSAKey.encryptLoopAux r fuel data
      = collectSome ((chunksAux (RSAKey.chunksize r) fuel data).map (RSAKey.encodeChunk r))
  | fuel, [], _ => by rw [encryptLoopAux_nil, chunksAux_nil]; rfl
  | 0, _ :: _, h => by simp at h
  | fuel + 1, d :: ds, h => by
    simp only [List.length_cons] at h
    simp only [RSAKey.encryptLoopAux, chunksAux, List.map_cons, collectSome]
    rw [encryptLoopAux_eq r fuel (ds.drop (RSAKey.chunksize r - 1))
      (by simp [List.length_drop]; omega)]

lemma encryptLoop_eq (r : RSAKey) (data : List Nat) :
    RSAKey.encryptLoop r data
      = collectSome ((chunks (RSAKey.chunksize r) data).map (RSAKey.encodeChunk r)) :=
  encryptLoopAux_eq r data.length data le_rfl

lemma decryptLoopAux_nil (r : RSAKey) : ∀ fuel, RSAKey.decryptLoopAux r fuel [] = some []
  | 0 => rfl
  | _ + 1 => rfl

lemma decryptLoopAux_eq (r : RSAKey) : ∀ (fuel : Nat) (data : List Nat),
    data.length ≤ fuel →
    RSAKey.decryptLoopAux r fuel data
      = collectSome ((chunksAux (RSAKey.chunksize r + 1) fuel data).map (RSAKey.decodeBlock r))
  | fuel, [], _ => by rw [decryptLoopAux_nil, chunksAux_nil]; rfl
  | 0, _ :: _, h => by simp at h
  | fuel + 1, d :: ds, h => by
    simp only [List.length_cons] at h
    simp only [RSAKey.decryptLoopAux, chunksAux, List.map_cons, collectSome,
      Nat.add_sub_cancel]
    rw [decryptLoopAux_eq r fuel (ds.drop (RSAKey.chunksize r))
      (by simp [List.length_drop]; omega)]

lemma decryptLoop_eq (r : RSAKey) (data : List Nat) :
    RSAKey.decryptLoop r data
      = collectSome ((chunks (RSAKey.chunksize r + 1) data).map (RSAKey.decodeBlock r)) :=
  decryptLoopAux_eq r data.length data le_rfl

/- Number-theoretic core: textbook RSA correctness for distinct primes. -/

lemma zmod_pow_cycle (p : Nat) (hp : p.Prime) (k : Nat) (x : ZMod p) :
    x ^ (1 + k * (p - 1)) = x := by
  rcases eq_or_ne x 0 with h0 | h0
  · subst h0
    have hne : 1 + k * (p - 1) ≠ 0 := by positivity
    rw [zero_pow hne]
  · haveI : Fact p.Prime := ⟨hp⟩
    rw [mul_comm k (p - 1), pow_add, pow_one, pow_mul,
      ZMod.pow_card_sub_one_eq_one h0, one_pow, mul_one]

lemma pow_cycle_mod_prime (p e m : Nat) (hp : p.Prime) (k : Nat)
    (hk : e = 1 + k * (p - 1)) : m ^ e ≡ m [MOD p] := by
  have h := zmod_pow_cycle p hp k (m : ZMod p)
  have h2 : ((m ^ e : Nat) : ZMod p) = ((m : Nat) : ZMod p) := by
    push_cast
    rw [hk]
    exact h
  exact (ZMod.natCast_eq_natCast_iff _ _ _).mp h2

lemma rsa_core (p q e d m : Nat) (hp : p.Prime) (hq : q.Prime) (hne : p ≠ q)
    (hed : e * d ≡ 1 [MOD (p - 1) * (q - 1)]) (hm : m < p * q) :
    (m ^ e % (p * q)) ^ d % (p * q) = m := by
  have hp2 := hp.two_le
  have hq2 := hq.two_le
  have ht2 : 2 ≤ (p - 1) * (q - 1) := by
    rcases Nat.lt_or_ge p 3 with hc | hc
    · calc 2 ≤ q - 1 := by omega
        _ = 1 * (q - 1) := (one_mul _).symm
        _ ≤ (p - 1) * (q - 1) := Nat.mul_le_mul_right _ (by omega)
    · calc 2 ≤ p - 1 := by omega
        _ = (p - 1) * 1 := (mul_one _).symm
        _ ≤ (p - 1) * (q - 1) := Nat.mul_le_mul_left _ (by omega)
  have hed1 : 1 ≤ e * d := by
    by_contra hcon
    have h0 : e * d = 0 := by omega
    have hmod := hed
    unfold Nat.ModEq at hmod
    rw [h0, Nat.zero_mod, Nat.mod_eq_of_lt (by omega)] at hmod
    omega
  have hdecomp : ∀ r : Nat, (r - 1) ∣ (p - 1) * (q - 1) →
      ∃ k, e * d = 1 + k * (r - 1) := by
    intro r hdvd
    have hmod : e * d ≡ 1 [MOD r - 1] := hed.of_dvd hdvd
    have h1 : (r - 1) ∣ (e * d - 1) := (Nat.modEq_iff_dvd' hed1).mp hmod.symm
    obtain ⟨k, hk⟩ := h1
    refine ⟨k, ?_⟩
    rw [mul_comm k (r - 1)]
    omega
  have hmp : m ^ (e * d) ≡ m [MOD p] := by
    obtain ⟨k, hk⟩ := hdecomp p (dvd_mul_right _ _)
    exact pow_cycle_mod_prime p (e * d) m hp k hk
  have hmq : m ^ (e * d) ≡ m [MOD q] := by
    obtain ⟨k, hk⟩ := hdecomp q (dvd_mul_left _ _)
    exact pow_cycle_mod_prime q (e * d) m hq k hk
  have hcop : Nat.Coprime p q := (Nat.coprime_primes hp hq).mpr hne
  have hmn : m ^ (e * d) ≡ m [MOD p * q] :=
    (Nat.modEq_and_modEq_iff_modEq_mul hcop).mp ⟨hmp, hmq⟩
  calc (m ^ e % (p * q)) ^ d % (p * q)
      = (m ^ e) ^ d % (p * q) := (Nat.pow_mod _ _ _).symm
    _ = m ^ (e * d) % (p * q) := by rw [← pow_mul]
    _ = m % (p * q) := hmn
    _ = m := Nat.mod_eq_of_lt hm

lemma chunks_mem (L : Nat) : ∀ (n : Nat) (data : List Nat), data.length ≤ n →
    ∀ c ∈ chunks L data, c.length ≤ L ∧ ∀ b ∈ c, b ∈ data
  | _, [], _, c, hc => by
    rw [chunks, chunksAux_nil] at hc
    simp at hc
  | 0, _ :: _, h, _, _ => by simp at h
  | n + 1, d :: ds, h, c, hc => by
    simp only [List.length_cons] at h
    rw [chunks_cons] at hc
    rcases List.mem_cons.mp hc with hc1 | hc2
    · subst hc1
      refine ⟨by simp [List.length_take], fun b hb => List.mem_of_mem_take hb⟩
    · have hrec := chunks_mem L n (ds.drop (L - 1))
        (by simp [List.length_drop]; omega) c hc2
      exact ⟨hrec.1, fun b hb =>
        List.mem_cons_of_mem d (List.mem_of_mem_drop (hrec.2 b hb))⟩

/- Key-level facts shared by the encryption and decryption proofs. -/

lemma chunksize_pos (r : RSAKey) (h256 : 256 ≤ r.composite) :
    1 ≤ RSAKey.chunksize r := by
  rw [chunksize_eq_log]
  exact Nat.log_pos (by norm_num) h256

lemma composite_lt_pow (r : RSAKey) :
    r.composite < 256 ^ (RSAKey.chunksize r + 1) := by
  rw [chunksize_eq_log]
  exact Nat.lt_pow_succ_log_self (by norm_num) _

lemma pow_chunksize_le_composite (r : RSAKey) (h256 : 256 ≤ r.composite) :
    256 ^ RSAKey.chunksize r ≤ r.composite := by
  rw [chunksize_eq_log]
  exact Nat.pow_log_le_self 256 (by omega)

lemma encodeChunk_eq (r : RSAKey) (h256 : 256 ≤ r.composite) (c : List Nat) :
    RSAKey.encodeChunk r c
      = some (toBEBytes (RSAKey.chunksize r + 1)
          (beVal (c ++ List.replicate (RSAKey.chunksize r - c.length) 0) ^ r.pubkey
            % r.composite)) := by
  unfold RSAKey.encodeChunk
  exact fmtBytes_of_lt (by omega)
    (lt_trans (Nat.mod_lt _ (by omega)) (composite_lt_pow r))

/-- Batch `encrypt` never raises: it produces exactly one `chunksize + 1`-byte
    block per chunk. -/
lemma encrypt_blocks (r : RSAKey) (data : List Nat) (h256 : 256 ≤ r.composite) :
    RSAKey.encrypt r data
      = some (((chunks (RSAKey.chunksize r) data).map
          (fun c => toBEBytes (RSAKey.chunksize r + 1)
            (beVal (c ++ List.replicate (RSAKey.chunksize r - c.length) 0) ^ r.pubkey
              % r.composite))).flatten) := by
  unfold RSAKey.encrypt
  rw [encryptLoop_eq,
    collectSome_map_eq (RSAKey.encodeChunk r) _ _
      (fun c _ => encodeChunk_eq r h256 c)]
  rfl

/-- Each decryption of an encrypted block recovers the zero-padded chunk,
    for an exact key pair built from two distinct primes. -/
lemma decodeBlock_encodeChunk (r : RSAKey) (p q : Nat) (data : List Nat)
    (hp : p.Prime) (hq : q.Prime) (hne : p ≠ q)
    (hed : r.pubkey * r.privkey ≡ 1 [MOD (p - 1) * (q - 1)])
    (hcomp : r.composite = p * q)
    (h256 : 256 ≤ r.composite)
    (hbytes : ∀ b ∈ data, b < 256) :
    ∀ c ∈ chunks (RSAKey.chunksize r) data,
      RSAKey.decodeBlock r
        (toBEBytes (RSAKey.chunksize r + 1)
          (beVal (c ++ List.replicate (RSAKey.chunksize r - c.length) 0) ^ r.pubkey
            % r.composite))
        = some (c ++ List.replicate (RSAKey.chunksize r - c.length) 0) := by
  intro c hc
  have hL1 : 1 ≤ RSAKey.chunksize r := chunksize_pos r h256
  have hcm := chunks_mem _ data.length data le_rfl c hc
  have hpadlen : (c ++ List.replicate (RSAKey.chunksize r - c.length) 0).length
      = RSAKey.chunksize r := by
    simp [List.length_append]
    omega
  have hpadbytes : ∀ b ∈ c ++ List.replicate (RSAKey.chunksize r - c.length) 0,
      b < 256 := by
    intro b hb
    rcases List.mem_append.mp hb with hbc | hbr
    · exact hbytes b (hcm.2 b hbc)
    · have h0 := List.eq_of_mem_replicate hbr
      omega
  have hmv_lt : beVal (c ++ List.replicate (RSAKey.chunksize r - c.length) 0)
      < 256 ^ RSAKey.chunksize r := by
    have hv := beVal_lt _ hpadbytes
    rwa [hpadlen] at hv
  have hmv_n : beVal (c ++ List.replicate (RSAKey.chunksize r - c.length) 0)
      < p * q := by
    rw [← hcomp]
    exact lt_of_lt_of_le hmv_lt (pow_chunksize_le_composite _ h256)
  unfold RSAKey.decodeBlock
  show fmtBytes (RSAKey.chunksize r)
      (beVal (toBEBytes (RSAKey.chunksize r + 1)
          (beVal (c ++ List.replicate (RSAKey.chunksize r - c.length) 0) ^ r.pubkey
            % r.composite)) ^ r.privkey % r.composite)
      = some (c ++ List.replicate (RSAKey.chunksize r - c.length) 0)
  rw [beVal_toBEBytes_of_lt
    (lt_trans (Nat.mod_lt _ (by omega)) (composite_lt_pow r))]
  rw [hcomp]
  rw [rsa_core p q r.pubkey r.privkey _ hp hq hne hed hmv_n]
  rw [fmtBytes_of_lt hL1 hmv_lt]
  have h3 := toBEBytes_beVal _ hpadbytes
  rw [hpadlen] at h3
  rw [h3]

/-- Batch round trip `decrypt(encrypt(data))` recovers `data` up to the final
    trailing-zero strip. -/
lemma roundtrip_core (p q e d : Nat) (data : List Nat)
    (hp : p.Prime) (hq : q.Prime) (hne : p ≠ q)
    (hed : e * d ≡ 1 [MOD (p - 1) * (q - 1)])
    (h256 : 256 ≤ p * q)
    (hbytes : ∀ b ∈ data, b < 256) :
    (RSAKey.encrypt (RSAKey.mkFromKeys e d (p * q)) data).bind
      (RSAKey.decrypt (RSAKey.mkFromKeys e d (p * q))) = some (rstripZeros data) := by
  have hcomp : (RSAKey.mkFromKeys e d (p * q)).composite = p * q := rfl
  have hL1 : 1 ≤ RSAKey.chunksize (RSAKey.mkFromKeys e d (p * q)) :=
    chunksize_pos _ h256
  rw [encrypt_blocks _ data h256, Option.some_bind]
  unfold RSAKey.decrypt
  rw [decryptLoop_eq]
  rw [chunks_flatten _ (by omega) _ (by
    intro b hb
    rcases List.mem_map.mp hb with ⟨c, _, rfl⟩
    exact toBEBytes_length _ _)]
  rw [List.map_map, Function.comp_def]
  rw [collectSome_map_eq _
    (fun c => c ++ List.replicate
      (RSAKey.chunksize (RSAKey.mkFromKeys e d (p * q)) - c.length) 0) _
    (decodeBlock_encodeChunk (RSAKey.mkFromKeys e d (p * q)) p q data
      hp hq hne hed hcomp h256 hbytes)]
  simp only [Option.map_some']
  obtain ⟨k, hk⟩ := chunks_pad_flatten _ hL1 data.length data le_rfl
  rw [hk, rstripZeros_append_replicate]

/- Remaining helper lemmas for the claims. -/

lemma isprime_one (bs : List Nat) : RSAKey.isprime 1 bs = false := rfl

lemma randprime_one_stuck : ∀ (steps : List (List Nat × Nat)),
    (∀ s ∈ steps, s.2 = 0) → RSAKey.randprimeFuel 1 1 steps = none
  | [], _ => rfl
  | (bs, r) :: rest, h => by
    have hr : r = 0 := h (bs, r) (by simp)
    subst hr
    simp only [RSAKey.randprimeFuel, isprime_one, if_false, Bool.false_eq_true]
    exact randprime_one_stuck rest (fun s hs => h s (by simp [hs]))

lemma hexEncodeBytes_length (bs : List Nat) :
    (hexEncodeBytes bs).length = 2 * bs.length := by
  induction bs with
  | nil => rfl
  | cons b t ih =>
    have step : hexEncodeBytes (b :: t)
        = hexDigitChar (b / 16) :: hexDigitChar (b % 16) :: hexEncodeBytes t := rfl
    rw [step, List.length_cons, List.length_cons, ih, List.length_cons]
    omega

/- The claims. -/

/-- C1 counterexample: the claim quantifies over "a product of two primes",
    which the generator does not force to be distinct.  With the equal primes
    17·17 = 289 ≥ 256, exponents e = 239, d = 15 satisfy e·d ≡ 1 mod the
    totient (17-1)·(17-1) = 256, yet the non-empty plaintext [2] (not ending
    in a null byte) decrypts to [172], not [2]. -/
theorem c1_counterexample :
    Nat.Prime 17 ∧ 289 = 17 * 17 ∧ 239 * 15 % ((17 - 1) * (17 - 1)) = 1 ∧
    (256 ≤ 289 ∧ [2] ≠ ([] : List Nat) ∧ ([2] : List Nat).getLast? ≠ some 0) ∧
    (RSAKey.encrypt (RSAKey.mkFromKeys 239 15 289) [2]).bind
      (RSAKey.decrypt (RSAKey.mkFromKeys 239 15 289)) ≠ some [2] :=
  ⟨by norm_num, by norm_num, by decide, ⟨by decide, by decide, by decide⟩, by decide⟩

/-- C1 (amended): for every exact RSA key pair whose modulus is a product of
    two DISTINCT primes with e·d ≡ 1 mod the totient and modulus ≥ 256, and
    every non-empty byte string that does not end in a null byte,
    decrypt(encrypt(m)) = m. -/
theorem c1_roundtrip (p q e d : Nat) (data : List Nat)
    (hp : Nat.Prime p) (hq : Nat.Prime q) (hne : p ≠ q)
    (hed : e * d ≡ 1 [MOD (p - 1) * (q - 1)])
    (h256 : 256 ≤ p * q)
    (hbytes : ∀ b ∈ data, b < 256)
    (_hdata : data ≠ [])
    (hlast : data.getLast? ≠ some 0) :
    (RSAKey.encrypt (RSAKey.mkFromKeys e d (p * q)) data).bind
      (RSAKey.decrypt (RSAKey.mkFromKeys e d (p * q))) = some data := by
  rw [roundtrip_core p q e d data hp hq hne hed h256 hbytes,
    rstripZeros_eq_self data hlast]

/-- C1 witness: the key pair p = 13, q = 23, e = 53, d = 5 (53·5 = 265 ≡ 1
    mod 264) on the plaintext [2]. -/
theorem c1_witness :
    (RSAKey.encrypt (RSAKey.mkFromKeys 53 5 (13 * 23)) [2]).bind
      (RSAKey.decrypt (RSAKey.mkFromKeys 53 5 (13 * 23))) = some [2] :=
  c1_roundtrip 13 23 53 5 [2] (by norm_num) (by norm_num) (by decide)
    rfl (by decide) (by decide) (by decide) (by decide)

/-- C2 counterexample: modulus 289 gives block width L+1 = 2; the 1-byte
    ciphertext [5] has a malformed length, yet decrypt returns [5] (the
    truncated block IS decoded) and decrypt_generator yields it as well —
    no ChunkLengthMismatch error exists anywhere in the code. -/
theorem c2_counterexample :
    (1 : Nat) % (RSAKey.chunksize (RSAKey.mkFromKeys 1 1 289) + 1) ≠ 0 ∧
    RSAKey.decrypt (RSAKey.mkFromKeys 1 1 289) [5] = some [5] ∧
    RSAKey.decrypt_generator (RSAKey.mkFromKeys 1 1 289) [5] = [some [5]] :=
  ⟨by decide, by decide, by decide⟩

/-- C2 (amended): decrypt and decrypt_generator perform no length validation:
    for every key with modulus ≥ 256 and every ciphertext, the loop processes
    exactly ⌈len/(L+1)⌉ block slices — the truncated final slice included when
    the length is not a multiple of L+1 — rather than failing. -/
theorem c2_no_length_check (r : RSAKey) (data : List Nat)
    (_h256 : 256 ≤ r.composite) :
    (RSAKey.decrypt_generator r data).length
      = (data.length + RSAKey.chunksize r) / (RSAKey.chunksize r + 1) := by
  unfold RSAKey.decrypt_generator
  rw [List.length_map, chunks_length (RSAKey.chunksize r + 1) (by omega)
    data.length data le_rfl]
  congr 1

/-- C2 witness: the malformed 1-byte ciphertext is processed as one slice. -/
theorem c2_witness :
    (RSAKey.decrypt_generator (RSAKey.mkFromKeys 1 1 289) [5]).length
      = (([5] : List Nat).length + RSAKey.chunksize (RSAKey.mkFromKeys 1 1 289))
        / (RSAKey.chunksize (RSAKey.mkFromKeys 1 1 289) + 1) :=
  c2_no_length_check (RSAKey.mkFromKeys 1 1 289) [5] (by decide)

/-- C3: the base drawn in a Miller-Rabin round is a = randbelow(n-1) + 2,
    which ranges over [2, n] rather than the claimed [2, n-2]: the raw draw
    r = 3 is valid for n = 5 (3 < n-1) but yields the base 5 > n-2, and that
    round wrongly declares the prime 5 composite. -/
theorem c3_base_out_of_range :
    (3 < 5 - 1 ∧ ¬(3 + 2 ≤ 5 - 2)) ∧
    RSAKey.isprime 5 [3] = false ∧ Nat.Prime 5 :=
  ⟨⟨by decide, by decide⟩, by decide, by norm_num⟩

/-- C4: set_public assigns the attribute `public` while encrypt keeps reading
    `pubkey`, so the exponent pair actually used is unchanged (only the
    modulus is replaced): after set_public((5, 289)) on a key with pubkey = 3,
    encrypting [2] yields the block for 2^3 mod 289 = 8, not for
    2^5 mod 289 = 32 as the claim requires. -/
theorem c4_set_public_ignored :
    (∀ (k : RSAKey) (e n : Nat),
      (RSAKey.set_public k (e, n)).privkey = k.privkey ∧
      (RSAKey.set_public k (e, n)).pubkey = k.pubkey) ∧
    RSAKey.encrypt (RSAKey.set_public (RSAKey.mkFromKeys 3 7 289) (5, 289)) [2]
      = some [0, 8] ∧
    2 ^ 5 % 289 = 32 ∧
    RSAKey.encrypt (RSAKey.set_public (RSAKey.mkFromKeys 3 7 289) (5, 289)) [2]
      ≠ some [0, 32] :=
  ⟨fun _ _ _ => ⟨rfl, rfl⟩, by decide, by decide, by decide⟩

/-- C5 counterexample: with bound 1 every candidate drawn is 1, which fails
    the primality test; after 1000 sampling attempts the loop is still
    running, and no InsufficientKeyDomain failure exists in the code. -/
theorem c5_counterexample :
    RSAKey.randprimeFuel 1 1 (List.replicate 1000 ([], 0)) = none :=
  randprime_one_stuck (List.replicate 1000 ([], 0))
    (fun s hs => by rw [List.eq_of_mem_replicate hs])

/-- C5 (amended): for bound 1 the prime-sampling loop of key generation never
    terminates: whatever finite sequence of randbelow(1) draws (all
    necessarily 0, giving candidate 1) is supplied, the loop is still running
    at its end; the code never raises InsufficientKeyDomain (no such error
    exists) and never returns. -/
theorem c5_randprime_never_terminates (steps : List (List Nat × Nat))
    (hdraws : ∀ s ∈ steps, s.2 < 1) :
    RSAKey.randprimeFuel 1 1 steps = none :=
  randprime_one_stuck steps (fun s hs => by have := hdraws s hs; omega)

/-- C5 witness: two attempts with draw 0. -/
theorem c5_witness :
    RSAKey.randprimeFuel 1 1 [([], 0), ([], 0)] = none :=
  c5_randprime_never_terminates [([], 0), ([], 0)] (by decide)

/-- C6: for every key with modulus ≥ 256, encrypt succeeds and the ciphertext
    length is exactly ⌈n/L⌉·(L+1) for an n-byte plaintext, and the modulus is
    below 256^(L+1) so every block value fits in L+1 bytes. -/
theorem c6_ciphertext_length (r : RSAKey) (data : List Nat)
    (h256 : 256 ≤ r.composite) :
    (RSAKey.encrypt r data).map List.length
      = some ((data.length + RSAKey.chunksize r - 1) / RSAKey.chunksize r
          * (RSAKey.chunksize r + 1)) ∧
    r.composite < 256 ^ (RSAKey.chunksize r + 1) := by
  constructor
  · rw [encrypt_blocks r data h256]
    simp only [Option.map_some']
    congr 1
    rw [flatten_length_const (RSAKey.chunksize r + 1) _ (by
      intro b hb
      rcases List.mem_map.mp hb with ⟨c, _, rfl⟩
      exact toBEBytes_length _ _)]
    rw [List.length_map,
      chunks_length _ (chunksize_pos r h256) data.length data le_rfl]
  · exact composite_lt_pow r

/-- C6 witness: three bytes with modulus 289 (L = 1) give a 6-byte ciphertext. -/
theorem c6_witness :
    (RSAKey.encrypt (RSAKey.mkFromKeys 1 1 289) [7, 8, 9]).map List.length
      = some ((([7, 8, 9] : List Nat).length
            + RSAKey.chunksize (RSAKey.mkFromKeys 1 1 289) - 1)
          / RSAKey.chunksize (RSAKey.mkFromKeys 1 1 289)
          * (RSAKey.chunksize (RSAKey.mkFromKeys 1 1 289) + 1)) ∧
    (RSAKey.mkFromKeys 1 1 289).composite
      < 256 ^ (RSAKey.chunksize (RSAKey.mkFromKeys 1 1 289) + 1) :=
  c6_ciphertext_length (RSAKey.mkFromKeys 1 1 289) [7, 8, 9] (by decide)

/-- C7: the generate_keys self-check can fail for keys produced by steps 1-4:
    with primes 2 and 3 (so totient 2), private exponent 1 (coprime to the
    totient) and its modular inverse 1 as public exponent, the first assert
    holds but the probe assert fails, since pow(pow(1234567, 1, 6), 1, 6)
    = 1234567 mod 6 = 1 ≠ 1234567. -/
theorem c7_selfcheck_fails :
    Nat.Prime 2 ∧ Nat.Prime 3 ∧ Nat.gcd 1 ((2 - 1) * (3 - 1)) = 1 ∧
    1 * 1 % ((2 - 1) * (3 - 1)) = 1 ∧
    RSAKey.selfCheck 1 1 ((2 - 1) * (3 - 1)) (2 * 3) = false :=
  ⟨by norm_num, by norm_num, by decide, by decide, by decide⟩

/-- C8: get_public and get_private raise AttributeError on a freshly
    constructed container: __init__ stores the key material in
    pubkey/privkey/composite, but the getters read the never-assigned
    attributes `public` and `private`. -/
theorem c8_getters_raise :
    RSAKey.get_public (RSAKey.mkFromKeys 3 7 33) = none ∧
    RSAKey.get_private (RSAKey.mkFromKeys 3 7 33) = none :=
  ⟨rfl, rfl⟩

/-- C9: batch and lazy encryption agree for every key with modulus ≥ 256:
    collecting the generator's blocks (with exception propagation) and joining
    them gives exactly the batch ciphertext. -/
theorem c9_encrypt_generator_agrees (r : RSAKey) (data : List Nat)
    (_h256 : 256 ≤ r.composite) :
    RSAKey.encrypt r data
      = (collectSome (RSAKey.encrypt_generator r data)).map List.flatten := by
  unfold RSAKey.encrypt RSAKey.encrypt_generator
  rw [encryptLoop_eq]

/-- C9 witness. -/
theorem c9_witness :
    RSAKey.encrypt (RSAKey.mkFromKeys 1 1 289) [1, 2, 3]
      = (collectSome (RSAKey.encrypt_generator (RSAKey.mkFromKeys 1 1 289)
          [1, 2, 3])).map List.flatten :=
  c9_encrypt_generator_agrees (RSAKey.mkFromKeys 1 1 289) [1, 2, 3] (by decide)

/-- C10: VigenereKey.copy passes the already-hex-encoded stored key back
    through the constructor, which hex-encodes it again: the copy's stored key
    is the hex encoding of the original's (twice its length), and for the key
    bytes [0] and message [1] the copy decrypts the original's ciphertext to
    [254], not [1]. -/
theorem c10_copy_double_hex :
    (∀ v : VigenereKey,
      (VigenereKey.copy v).key = hexEncodeBytes v.key ∧
      (VigenereKey.copy v).key.length = 2 * v.key.length) ∧
    (VigenereKey.encrypt (VigenereKey.mkFromBytes [0]) [1]).bind
      (VigenereKey.decrypt (VigenereKey.copy (VigenereKey.mkFromBytes [0])))
      = some [254] ∧
    some [254] ≠ some ([1] : List Nat) :=
  ⟨fun v => ⟨rfl, hexEncodeBytes_length v.key⟩, by decide, by decide⟩
